import Mathlib

/-!
# Verification of the manifest-editor core (`src/lib.rs`)

A shallow embedding of the Rust crate in `src/lib.rs`, which loads every
package manifest of a cargo workspace into a generic TOML tree, bumps
`package.version` fields according to semver rules, and writes the trees
back to disk.

External collaborators (the `toml` codec, the `semver` library,
`cargo_metadata` workspace discovery, and the filesystem) are modelled
explicitly: the semver value type follows the spec's description of the
external library (a major/minor/patch value with reset-style increments and
a decimal dotted string form); the TOML parser and serializer are passed in
as functions; workspace discovery results and the disk are explicit values.
-/

set_option autoImplicit false

namespace ManifestEditor

/-- A generic TOML value tree (`toml::Value`).  Tables are association lists
from string keys to values, mirroring the map navigated by the Rust code via
`as_table_mut` / `get_mut`. -/
inductive Toml where
  | str (s : String)
  | int (n : Int)
  | boolean (b : Bool)
  | arr (xs : List Toml)
  | table (es : List (String × Toml))
deriving Repr

/-- `toml::Value::as_str`: the string payload, if the value is a string. -/
def Toml.asStr? : Toml → Option String
  | .str s => some s
  | _ => none

/-- `toml::Value::as_table_mut` (read side): the entry list, if the value is
a table. -/
def Toml.asTable? : Toml → Option (List (String × Toml))
  | .table es => some es
  | _ => none

/-- `get` / `get_mut` on a TOML table: the value at the first entry whose key
matches. -/
def tget (es : List (String × Toml)) (k : String) : Option Toml :=
  match es with
  | [] => none
  | (k', v) :: rest => if k' = k then some v else tget rest k

/-- Assignment through a `get_mut` borrow: replace the value at the first
entry whose key matches, leaving every other entry untouched.  When the key
is absent the table is unchanged (the Rust code only assigns through a
reference that `get_mut` did return). -/
def tset (es : List (String × Toml)) (k : String) (v : Toml) : List (String × Toml) :=
  match es with
  | [] => []
  | (k', v') :: rest => if k' = k then (k', v) :: rest else (k', v') :: tset rest k v

/-- The spec's model of the external semver value: a three-component
major/minor/patch version (`semver::Version` as used by this crate, which
only ever stores increment results, whose pre-release and build lists are
empty). -/
structure Version where
  major : Nat
  minor : Nat
  patch : Nat
deriving Repr, DecidableEq

/-- One decimal digit character to its value; `none` on any other
character (as Rust's `char::to_digit(10)`). -/
def charToDigit? (c : Char) : Option Nat :=
  if '0' ≤ c ∧ c ≤ '9' then some (c.toNat - 48) else none

/-- A digit value to its character (defined for digits `0`–`9`). -/
def digitToChar : Nat → Char
  | 0 => '0'
  | 1 => '1'
  | 2 => '2'
  | 3 => '3'
  | 4 => '4'
  | 5 => '5'
  | 6 => '6'
  | 7 => '7'
  | 8 => '8'
  | _ => '9'

/-- The digit values of a character list, `none` if any character is not a
decimal digit. -/
def digitChars? : List Char → Option (List Nat)
  | [] => some []
  | c :: rest =>
    match charToDigit? c, digitChars? rest with
    | some d, some ds => some (d :: ds)
    | _, _ => none

/-- Read a nonempty all-digit character list as a decimal number
(most-significant digit first), as Rust's `u64: FromStr` does. -/
def digitsToNat? (cs : List Char) : Option Nat :=
  match digitChars? cs with
  | none => none
  | some ds => if ds = [] then none else some (Nat.ofDigits 10 ds.reverse)

/-- Little-endian base-10 digits of `n`, computed with explicit fuel so
that the definition is structural and evaluates by reduction. -/
def natDigitsAux : Nat → Nat → List Nat
  | _, 0 => []
  | 0, _ + 1 => []
  | fuel + 1, n + 1 => (n + 1) % 10 :: natDigitsAux fuel ((n + 1) / 10)

/-- The decimal digit characters of a number, most-significant first, as
produced by Rust's `Display for u64`. -/
def natToChars (n : Nat) : List Char :=
  if n = 0 then ['0'] else ((natDigitsAux n n).map digitToChar).reverse

/-- Split a character list at every occurrence of the separator. -/
def splitChars (sep : Char) (cs : List Char) : List (List Char) :=
  match cs with
  | [] => [[]]
  | c :: rest =>
    let r := splitChars sep rest
    if c = sep then [] :: r
    else
      match r with
      | [] => [[c]]
      | g :: gs => (c :: g) :: gs

/-- `semver::Version::parse` on the underlying character list: a dotted
decimal `major.minor.patch` triple. -/
def parseChars (cs : List Char) : Option Version :=
  match splitChars '.' cs with
  | [a, b, c] =>
    match digitsToNat? a, digitsToNat? b, digitsToNat? c with
    | some x, some y, some z => some ⟨x, y, z⟩
    | _, _, _ => none
  | _ => none

/-- `semver::Version::parse`, per the spec's model of the external
library. -/
def Version.parse (s : String) : Option Version :=
  parseChars s.data

/-- `Version::to_string`: the canonical `major.minor.patch` decimal form. -/
def Version.render (v : Version) : String :=
  ⟨natToChars v.major ++ '.' :: natToChars v.minor ++ '.' :: natToChars v.patch⟩

/-- `semver::Version::increment_major`: bump major, reset minor and patch. -/
def Version.incrementMajor (v : Version) : Version :=
  ⟨v.major + 1, 0, 0⟩

/-- `semver::Version::increment_minor`: bump minor, reset patch. -/
def Version.incrementMinor (v : Version) : Version :=
  ⟨v.major, v.minor + 1, 0⟩

/-- `semver::Version::increment_patch`: bump patch only. -/
def Version.incrementPatch (v : Version) : Version :=
  ⟨v.major, v.minor, v.patch + 1⟩

/-- The `SemVer` bump-level enum of `src/lib.rs`. -/
inductive SemVer where
  | major
  | minor
  | patch
deriving Repr, DecidableEq

/-- Dispatch of the `match bump { ... }` in `bump_raw_version`. -/
def Version.increment (v : Version) : SemVer → Version
  | .major => v.incrementMajor
  | .minor => v.incrementMinor
  | .patch => v.incrementPatch

/-- One workspace member as reported by `cargo_metadata`: its name, its
unique package id, and its manifest path. -/
structure Package where
  name : String
  id : String
  manifestPath : String
deriving Repr, DecidableEq

/-- The `Metadata` struct: the discovered package list together with the map
from package id to that package's raw TOML document. -/
structure Metadata where
  rawTomlMap : List (String × Toml)
  packages : List Package
deriving Repr

/-- Read the raw document of a package id out of `raw_toml_map`. -/
def Metadata.doc? (m : Metadata) (id : String) : Option Toml :=
  tget m.rawTomlMap id

/-- `Metadata::package_id`: the id of the first package in discovery order
whose name matches. -/
def Metadata.package_id (m : Metadata) (name : String) : Option String :=
  (m.packages.find? (fun p => p.name == name)).map (·.id)

/-- The document side of `Metadata::package_mut`:
`as_table_mut()? .get_mut("package")? .as_table_mut()` — the `package`
table of a raw document, if the document is a table with a table at key
`package`. -/
def docPackageTable? (doc : Toml) : Option (List (String × Toml)) :=
  doc.asTable?.bind (fun es => (tget es "package").bind Toml.asTable?)

/-- `Metadata::bump_raw_version`: read the node as a string, parse it as a
semver, increment it, and produce the new version together with the string
node written back through the mutable reference.  `none` on a non-string
node or an unparsable string (the `?`-chain misses). -/
def bump_raw_version (version : Toml) (bump : SemVer) : Option (Version × Toml) :=
  match version.asStr? with
  | none => none
  | some s =>
    match Version.parse s with
    | none => none
    | some v =>
      let v' := v.increment bump
      some (v', Toml.str v'.render)

/-- `Metadata::bump_version_inner` (and `package_mut` inlined): resolve the
name to a package id, navigate `raw_toml_map[id] → as_table → "package" →
as_table → "version"`, bump that node, and write the result back along the
same path.  Any miss leaves the metadata untouched and yields `none`. -/
def Metadata.bump_version_inner (m : Metadata) (name : String) (bump : SemVer) :
    Option Version × Metadata :=
  match m.package_id name with
  | none => (none, m)
  | some id =>
    match tget m.rawTomlMap id with
    | none => (none, m)
    | some doc =>
      match doc.asTable? with
      | none => (none, m)
      | some es =>
        match tget es "package" with
        | none => (none, m)
        | some pkg =>
          match pkg.asTable? with
          | none => (none, m)
          | some pes =>
            match tget pes "version" with
            | none => (none, m)
            | some ver =>
              match bump_raw_version ver bump with
              | none => (none, m)
              | some (v', newVer) =>
                (some v',
                 { m with
                    rawTomlMap :=
                      tset m.rawTomlMap id
                        (.table (tset es "package" (.table (tset pes "version" newVer)))) })

/-- `Metadata::bump_patch_version`. -/
def Metadata.bump_patch_version (m : Metadata) (name : String) :
    Option Version × Metadata :=
  m.bump_version_inner name .patch

/-- `Metadata::bump_minor_version`. -/
def Metadata.bump_minor_version (m : Metadata) (name : String) :
    Option Version × Metadata :=
  m.bump_version_inner name .minor

/-- `Metadata::bump_major_version`. -/
def Metadata.bump_major_version (m : Metadata) (name : String) :
    Option Version × Metadata :=
  m.bump_version_inner name .major

/-- `Metadata::get_version_mut` (read side): descend to the table at
`package`, then to the value at `version`. -/
def get_version (t : Toml) : Option Toml :=
  match t.asTable? with
  | none => none
  | some es =>
    match tget es "package" with
    | none => none
    | some pkg =>
      match pkg.asTable? with
      | none => none
      | some pes => tget pes "version"

/-- Assignment through the reference returned by `get_version_mut`: replace
the value of the `version` key of the `package` table.  A no-op when the
path does not exist (the Rust code only assigns after `get_version_mut`
returned `Some`). -/
def set_version (t : Toml) (v : Toml) : Toml :=
  match t with
  | .table es =>
    match tget es "package" with
    | some (.table pes) => .table (tset es "package" (.table (tset pes "version" v)))
    | _ => t
  | _ => t

/-- The loop body of `Metadata::bump_all_patch_versions` for one document:
if `get_version_mut` misses, the document is skipped; otherwise the code
runs `version.as_str().unwrap()` and `semver::Version::parse(..).unwrap()`,
so a non-string node or an unparsable string is a panic, modelled as
`none`. -/
def bumpAllDoc (t : Toml) : Option Toml :=
  match get_version t with
  | none => some t
  | some ver =>
    match ver.asStr? with
    | none => none
    | some s =>
      match Version.parse s with
      | none => none
      | some v => some (set_version t (Toml.str v.incrementPatch.render))

/-- The iteration of `bump_all_patch_versions` over `raw_toml_map`;
`none` propagates a panic. -/
def bumpAllDocs : List (String × Toml) → Option (List (String × Toml))
  | [] => some []
  | (k, t) :: rest =>
    match bumpAllDoc t with
    | none => none
    | some t' => (bumpAllDocs rest).map (fun r => (k, t') :: r)

/-- `Metadata::bump_all_patch_versions`: bump the patch version of every
document in `raw_toml_map` in place; `none` models a panic of the Rust
code. -/
def Metadata.bump_all_patch_versions (m : Metadata) : Option Metadata :=
  (bumpAllDocs m.rawTomlMap).map (fun raw => { m with rawTomlMap := raw })

/-- The per-package body of the `collect` in `Metadata::from_dir`: read the
manifest file (`fs::read_to_string`) and parse it with the external TOML
parser; either failure is an error. -/
def loadDocs (readFile : String → Option String) (parse : String → Option Toml) :
    List Package → Except String (List (String × Toml))
  | [] => .ok []
  | p :: ps =>
    match readFile p.manifestPath with
    | none => .error p.manifestPath
    | some content =>
      match parse content with
      | none => .error p.manifestPath
      | some doc => (loadDocs readFile parse ps).map (fun rest => (p.id, doc) :: rest)

/-- `Metadata::from_dir`: run workspace discovery (`cargo_metadata`, passed
in as its result), then eagerly read and parse every member's manifest; the
first failure aborts the whole construction. -/
def from_dir (ws : Except String (List Package))
    (readFile : String → Option String) (parse : String → Option Toml) :
    Except String Metadata :=
  match ws with
  | .error e => .error e
  | .ok pkgs =>
    match loadDocs readFile parse pkgs with
    | .error e => .error e
    | .ok raw => .ok { rawTomlMap := raw, packages := pkgs }

/-- The filesystem as `Metadata::dump` sees it: the text of each file, plus
environment oracles saying whether `File::create` and `write_all` succeed
at a path. -/
structure Fs where
  files : String → Option String
  createOk : String → Bool
  writeOk : String → Bool

/-- `fs::File::create`: create-or-truncate, leaving an empty file. -/
def Fs.truncate (fs : Fs) (path : String) : Fs :=
  { fs with files := fun q => if q = path then some "" else fs.files q }

/-- A successful `write_all`: the file now holds the serialized text. -/
def Fs.write (fs : Fs) (path : String) (text : String) : Fs :=
  { fs with files := fun q => if q = path then some text else fs.files q }

/-- Outcome of `Metadata::dump`: success, an `io::Error` (with the disk
state at the failure), or a panic of the `unwrap` on the document lookup. -/
inductive DumpResult where
  | ok (fs : Fs)
  | err (fs : Fs)
  | panicked

/-- The loop of `Metadata::dump` over `metadata.packages`, in order: open
(create-or-truncate) the manifest file, look up the document by id (the
`unwrap`), serialize it with the external TOML serializer, and write the
text.  Any error stops the loop with the disk as it stands. -/
def dumpGo (raw : List (String × Toml)) (serialize : Toml → Option String) :
    List Package → Fs → DumpResult
  | [], fs => .ok fs
  | p :: ps, fs =>
    if fs.createOk p.manifestPath then
      let fs1 := fs.truncate p.manifestPath
      match tget raw p.id with
      | none => .panicked
      | some doc =>
        match serialize doc with
        | none => .err fs1
        | some text =>
          if fs.writeOk p.manifestPath then dumpGo raw serialize ps (fs1.write p.manifestPath text)
          else .err fs1
    else .err fs

/-- `Metadata::dump`: write every package's document back to its manifest
path. -/
def Metadata.dump (m : Metadata) (serialize : Toml → Option String) (fs : Fs) : DumpResult :=
  dumpGo m.rawTomlMap serialize m.packages fs

/-! ## Concrete workspaces used to instantiate the theorems -/

/-- The `package` table of a one-package workspace at version `1.2.3`. -/
def pkgPes : List (String × Toml) := [("name", .str "pkg"), ("version", .str "1.2.3")]

/-- The top-level entries of that manifest. -/
def pkgEs : List (String × Toml) := [("package", .table pkgPes)]

/-- The raw document of that manifest. -/
def pkgDoc : Toml := .table pkgEs

/-- A session holding the single package `pkg` at version `1.2.3`. -/
def mOne : Metadata :=
  { rawTomlMap := [("id-pkg", pkgDoc)], packages := [⟨"pkg", "id-pkg", "Cargo.toml"⟩] }

/-- First manifest of the duplicate-name workspace: `dup` at `0.1.0`, with
an extra top-level table that must survive bumps. -/
def docA : Toml :=
  .table [("package", .table [("name", .str "dup"), ("version", .str "0.1.0")]),
          ("dependencies", .table [("x", .str "1")])]

/-- Second manifest of the duplicate-name workspace: `dup` at `5.0.0`. -/
def docB : Toml :=
  .table [("package", .table [("name", .str "dup"), ("version", .str "5.0.0")])]

/-- A session with two packages both named `dup`, discovery order `A` then
`B`. -/
def mdup : Metadata :=
  { rawTomlMap := [("A", docA), ("B", docB)],
    packages := [⟨"dup", "A", "a/Cargo.toml"⟩, ⟨"dup", "B", "b/Cargo.toml"⟩] }

/-- A manifest whose `package.version` exists but is an integer, not a
string. -/
def docBadVersion : Toml := .table [("package", .table [("version", .int 1)])]

/-- A three-package session where the middle package has a non-string
`package.version`. -/
def mMixed : Metadata :=
  { rawTomlMap := [("A", docA), ("C", docBadVersion), ("B", docB)],
    packages := [⟨"a", "A", "a/Cargo.toml"⟩, ⟨"c", "C", "c/Cargo.toml"⟩,
                 ⟨"b", "B", "b/Cargo.toml"⟩] }

/-- The 1:1 correspondence between the document store and the package
list: the keys of `raw_toml_map`, in order, are exactly the ids of
`packages`. -/
def inSync (m : Metadata) : Prop :=
  m.rawTomlMap.map Prod.fst = m.packages.map Package.id

/-- The frame relation of the version mutator on one raw document: either
the document is untouched, or both old and new documents are tables with
the same keys agreeing on every key other than `package`, their `package`
values are tables with the same keys agreeing on every key other than
`version`, and the new `version` value is a string. -/
def sameOutsideVersion (doc doc' : Toml) : Prop :=
  doc' = doc ∨
  ∃ es pes es' pes' s,
    doc = .table es ∧ doc' = .table es' ∧
    es'.map Prod.fst = es.map Prod.fst ∧
    (∀ k, k ≠ "package" → tget es' k = tget es k) ∧
    tget es "package" = some (.table pes) ∧
    tget es' "package" = some (.table pes') ∧
    pes'.map Prod.fst = pes.map Prod.fst ∧
    (∀ k, k ≠ "version" → tget pes' k = tget pes k) ∧
    tget pes' "version" = some (.str s)

/-- A serializer instance for the external TOML codec that renders every
document to the same text, used to instantiate the persistence theorems. -/
def serializeConst : Toml → Option String := fun _ => some "MANIFEST"

/-- A disk holding both manifests of the `dup` workspace, with all
filesystem operations succeeding. -/
def fsGood : Fs :=
  { files := fun p =>
      if p = "a/Cargo.toml" then some "A0"
      else if p = "b/Cargo.toml" then some "B0"
      else none,
    createOk := fun _ => true,
    writeOk := fun _ => true }

/-- The same disk, except that writing to the first package's manifest
fails (e.g. the disk fills up after the file was opened). -/
def fsBadWrite : Fs :=
  { fsGood with writeOk := fun p => !(p == "a/Cargo.toml") }

/-- The disk after a fully successful `dump` of the `dup` workspace under
`serializeConst`. -/
def fsGoodRes : Fs :=
  (((fsGood.truncate "a/Cargo.toml").write "a/Cargo.toml" "MANIFEST").truncate
      "b/Cargo.toml").write "b/Cargo.toml" "MANIFEST"

/-! ## Association-list lemmas -/

theorem tget_tset_ne (es : List (String × Toml)) (k k' : String) (v : Toml)
    (h : k' ≠ k) : tget (tset es k v) k' = tget es k' := by
  induction es with
  | nil => rfl
  | cons e rest ih =>
    obtain ⟨ek, ev⟩ := e
    by_cases hk : ek = k
    · subst hk
      simp [tset, tget, h.symm]
    · simp only [tset, if_neg hk, tget]
      by_cases hk' : ek = k'
      · simp [hk']
      · simp [hk', ih]

theorem tget_tset_self (es : List (String × Toml)) (k : String) (v v₀ : Toml)
    (h : tget es k = some v₀) : tget (tset es k v) k = some v := by
  induction es with
  | nil => simp [tget] at h
  | cons e rest ih =>
    obtain ⟨ek, ev⟩ := e
    by_cases hk : ek = k
    · subst hk
      simp [tset, tget]
    · simp only [tget, if_neg hk] at h
      simp [tset, tget, if_neg hk, ih h]

theorem tset_map_fst (es : List (String × Toml)) (k : String) (v : Toml) :
    (tset es k v).map Prod.fst = es.map Prod.fst := by
  induction es with
  | nil => rfl
  | cons e rest ih =>
    obtain ⟨ek, ev⟩ := e
    by_cases hk : ek = k <;> simp [tset, hk, ih]

theorem tget_isSome_of_mem_fst (es : List (String × Toml)) (k : String)
    (h : k ∈ es.map Prod.fst) : (tget es k).isSome := by
  induction es with
  | nil => simp at h
  | cons e rest ih =>
    obtain ⟨ek, ev⟩ := e
    by_cases hk : ek = k
    · simp [tget, hk]
    · simp only [List.map_cons, List.mem_cons] at h
      rcases h with h | h
      · exact absurd h.symm hk
      · simpa [tget, hk] using ih h

/-! ## Decimal parse/render roundtrip for the semver model -/

theorem charToDigit?_digitToChar {d : Nat} (h : d < 10) :
    charToDigit? (digitToChar d) = some d := by
  interval_cases d <;> decide

theorem natDigitsAux_eq_digits (fuel n : Nat) (h : n ≤ fuel) :
    natDigitsAux fuel n = Nat.digits 10 n := by
  induction fuel generalizing n with
  | zero =>
    interval_cases n
    simp [natDigitsAux]
  | succ fuel ih =>
    match n with
    | 0 => simp [natDigitsAux]
    | n + 1 =>
      rw [natDigitsAux, Nat.digits_def' (by norm_num : (1 : Nat) < 10) (Nat.succ_pos n)]
      have hdiv : (n + 1) / 10 ≤ fuel :=
        Nat.le_of_lt_succ (Nat.lt_of_lt_of_le (Nat.div_lt_self (Nat.succ_pos n) (by norm_num)) h)
      rw [ih _ hdiv]

theorem digitChars?_map_digitToChar (l : List Nat) (h : ∀ d ∈ l, d < 10) :
    digitChars? (l.map digitToChar) = some l := by
  induction l with
  | nil => rfl
  | cons d rest ih =>
    have hd : d < 10 := h d (List.mem_cons_self d rest)
    have hrest := ih (fun x hx => h x (List.mem_cons_of_mem d hx))
    simp [digitChars?, charToDigit?_digitToChar hd, hrest]

theorem digitsToNat?_natToChars (n : Nat) : digitsToNat? (natToChars n) = some n := by
  by_cases h0 : n = 0
  · subst h0; rfl
  · have hlt : ∀ d ∈ Nat.digits 10 n, d < 10 := fun d hd =>
      Nat.digits_lt_base (by norm_num) hd
    have hels : natToChars n = ((Nat.digits 10 n).reverse.map digitToChar) := by
      simp [natToChars, h0, natDigitsAux_eq_digits n n le_rfl, List.map_reverse]
    have hmap := digitChars?_map_digitToChar (Nat.digits 10 n).reverse
      (fun d hd => hlt d (List.mem_reverse.mp hd))
    have hne : Nat.digits 10 n ≠ [] := Nat.digits_ne_nil_iff_ne_zero.mpr h0
    have hne' : (Nat.digits 10 n).reverse ≠ [] := by
      simpa using hne
    simp only [digitsToNat?, hels, hmap, if_neg hne', List.reverse_reverse]
    rw [Nat.ofDigits_digits]

theorem natToChars_all_digits (n : Nat) :
    ∀ c ∈ natToChars n, ∃ d, d < 10 ∧ c = digitToChar d := by
  intro c hc
  by_cases h0 : n = 0
  · subst h0
    have : natToChars 0 = ['0'] := rfl
    rw [this, List.mem_singleton] at hc
    exact ⟨0, by norm_num, hc⟩
  · simp only [natToChars, if_neg h0, natDigitsAux_eq_digits n n le_rfl,
      List.mem_reverse, List.mem_map] at hc
    obtain ⟨d, hd, rfl⟩ := hc
    exact ⟨d, Nat.digits_lt_base (by norm_num) hd, rfl⟩

theorem natToChars_ne_dot (n : Nat) : ∀ c ∈ natToChars n, c ≠ '.' := by
  intro c hc
  obtain ⟨d, hd, rfl⟩ := natToChars_all_digits n c hc
  interval_cases d <;> decide

theorem splitChars_ne_nil (sep : Char) (cs : List Char) : splitChars sep cs ≠ [] := by
  induction cs with
  | nil => simp [splitChars]
  | cons c rest ih =>
    simp only [splitChars]
    by_cases h : c = sep
    · simp [h]
    · simp only [if_neg h]
      match hr : splitChars sep rest with
      | [] => exact absurd hr ih
      | g :: gs => simp

theorem splitChars_no_sep (sep : Char) (cs : List Char) (h : ∀ c ∈ cs, c ≠ sep) :
    splitChars sep cs = [cs] := by
  induction cs with
  | nil => rfl
  | cons c rest ih =>
    have hc : c ≠ sep := h c (List.mem_cons_self c rest)
    have hrest := ih (fun x hx => h x (List.mem_cons_of_mem c hx))
    simp [splitChars, hc, hrest]

theorem splitChars_append (sep : Char) (xs rest : List Char) (h : ∀ c ∈ xs, c ≠ sep) :
    splitChars sep (xs ++ sep :: rest) = xs :: splitChars sep rest := by
  induction xs with
  | nil => simp [splitChars]
  | cons c xs' ih =>
    have hc : c ≠ sep := h c (List.mem_cons_self c xs')
    have hxs' := ih (fun x hx => h x (List.mem_cons_of_mem c hx))
    simp [splitChars, hc, hxs']

/-- Re-parsing the canonical string form of a version yields the version
back: the semver model's roundtrip. -/
theorem Version.parse_render (v : Version) : Version.parse v.render = some v := by
  obtain ⟨a, b, c⟩ := v
  show parseChars (natToChars a ++ '.' :: natToChars b ++ '.' :: natToChars c) = _
  have hassoc : natToChars a ++ '.' :: natToChars b ++ '.' :: natToChars c =
      natToChars a ++ '.' :: (natToChars b ++ '.' :: natToChars c) := by
    simp
  have hsplit : splitChars '.' (natToChars a ++ '.' :: (natToChars b ++ '.' :: natToChars c)) =
      [natToChars a, natToChars b, natToChars c] := by
    rw [splitChars_append '.' _ _ (natToChars_ne_dot a),
      splitChars_append '.' _ _ (natToChars_ne_dot b),
      splitChars_no_sep '.' _ (natToChars_ne_dot c)]
  simp only [parseChars, hassoc, hsplit, digitsToNat?_natToChars]

/-! ## Shape lemmas for the TOML accessors -/

theorem Toml.asTable?_eq_some {t : Toml} {es : List (String × Toml)} :
    t.asTable? = some es ↔ t = .table es := by
  cases t <;> simp [Toml.asTable?]

theorem Toml.asStr?_eq_some {t : Toml} {s : String} :
    t.asStr? = some s ↔ t = .str s := by
  cases t <;> simp [Toml.asStr?]

/-- Inversion of a successful `bump_raw_version`: the node was a string
that parsed, the returned version is the increment, and the node written
back is the rendered increment. -/
theorem bump_raw_version_eq_some {ver : Toml} {bump : SemVer} {v' : Version} {newVer : Toml}
    (h : bump_raw_version ver bump = some (v', newVer)) :
    ∃ s v, ver.asStr? = some s ∧ Version.parse s = some v ∧
      v' = v.increment bump ∧ newVer = .str (v.increment bump).render := by
  unfold bump_raw_version at h
  split at h
  · exact absurd h (by simp)
  · rename_i s hstr
    split at h
    · exact absurd h (by simp)
    · rename_i v hpv
      simp only [Option.some_inj, Prod.mk.injEq] at h
      exact ⟨s, v, hstr, hpv, h.1.symm, h.2.symm⟩

/-- Full characterization of `bump_version_inner`: either the `?`-chain
misses and the metadata is returned untouched with no value, or every step
of the navigation succeeded and exactly the `version` node of the resolved
package's document is replaced by the rendered incremented version. -/
theorem bump_version_inner_cases (m : Metadata) (name : String) (bump : SemVer) :
    m.bump_version_inner name bump = (none, m) ∨
    ∃ id es pes ver s v,
      m.package_id name = some id ∧
      tget m.rawTomlMap id = some (.table es) ∧
      tget es "package" = some (.table pes) ∧
      tget pes "version" = some ver ∧
      ver.asStr? = some s ∧
      Version.parse s = some v ∧
      m.bump_version_inner name bump =
        (some (v.increment bump),
         { m with
            rawTomlMap :=
              tset m.rawTomlMap id
                (.table (tset es "package"
                  (.table (tset pes "version" (.str (v.increment bump).render))))) }) := by
  unfold Metadata.bump_version_inner
  split
  · left; rfl
  rename_i id hid
  split
  · left; rfl
  rename_i doc hdoc
  split
  · left; rfl
  rename_i es hdt
  split
  · left; rfl
  rename_i pkg hpkg
  split
  · left; rfl
  rename_i pes hpt
  split
  · left; rfl
  rename_i ver hver
  split
  · left; rfl
  rename_i p v' newVer hbr
  right
  rw [Toml.asTable?_eq_some] at hdt hpt
  subst hdt
  subst hpt
  obtain ⟨s, v, hstr, hpv, hv', hnew⟩ := bump_raw_version_eq_some hbr
  subst hv'
  subst hnew
  exact ⟨id, es, pes, ver, s, v, hid, hdoc, hpkg, hver, hstr, hpv, rfl⟩

/-- When the whole navigation chain succeeds, `bump_version_inner` returns
the incremented version and writes its rendered form back along the same
path. -/
theorem bump_version_inner_eq_of_chain (m : Metadata) (name : String) (bump : SemVer)
    (id : String) (es pes : List (String × Toml)) (s : String) (v : Version)
    (hid : m.package_id name = some id)
    (hdoc : tget m.rawTomlMap id = some (.table es))
    (hpkg : tget es "package" = some (.table pes))
    (hver : tget pes "version" = some (.str s))
    (hpv : Version.parse s = some v) :
    m.bump_version_inner name bump =
      (some (v.increment bump),
       { m with
          rawTomlMap :=
            tset m.rawTomlMap id
              (.table (tset es "package"
                (.table (tset pes "version" (.str (v.increment bump).render))))) }) := by
  rcases bump_version_inner_cases m name bump with hmiss |
    ⟨id₂, es₂, pes₂, ver₂, s₂, v₂, hid₂, hdoc₂, hpkg₂, hver₂, hstr₂, hpv₂, heq₂⟩
  · exfalso
    have hthis := hmiss
    rw [Metadata.bump_version_inner, hid] at hthis
    simp only [hdoc, Toml.asTable?, hpkg, hver, bump_raw_version, Toml.asStr?,
      hpv] at hthis
    simp only [Prod.mk.injEq] at hthis
    exact Option.noConfusion hthis.1
  · rw [hid] at hid₂
    replace hid₂ : id₂ = id := (Option.some_inj.mp hid₂).symm
    subst hid₂
    rw [hdoc] at hdoc₂
    replace hdoc₂ := Option.some_inj.mp hdoc₂
    injection hdoc₂ with hES
    subst hES
    rw [hpkg] at hpkg₂
    replace hpkg₂ := Option.some_inj.mp hpkg₂
    injection hpkg₂ with hPES
    subst hPES
    rw [hver] at hver₂
    replace hver₂ : ver₂ = Toml.str s := (Option.some_inj.mp hver₂).symm
    subst hver₂
    rw [Toml.asStr?] at hstr₂
    replace hstr₂ : s₂ = s := (Option.some_inj.mp hstr₂).symm
    subst hstr₂
    rw [hpv] at hpv₂
    replace hpv₂ : v₂ = v := (Option.some_inj.mp hpv₂).symm
    subst hpv₂
    exact heq₂

/-- **C2**: for every session, package name and level, the single-package
bump returns an empty result (not an error) and leaves every document
completely unmodified when the name matches no package, the resolved
document lacks a `package` map, the `package` map lacks a `version` key,
the `version` value is not a string, or the string fails to parse as a
semantic version. -/
theorem bump_miss_no_effect (m : Metadata) (name : String) (bump : SemVer)
    (h :
      m.package_id name = none ∨
      (∃ id doc, m.package_id name = some id ∧ m.doc? id = some doc ∧
        docPackageTable? doc = none) ∨
      (∃ id doc pes, m.package_id name = some id ∧ m.doc? id = some doc ∧
        docPackageTable? doc = some pes ∧ tget pes "version" = none) ∨
      (∃ id doc pes ver, m.package_id name = some id ∧ m.doc? id = some doc ∧
        docPackageTable? doc = some pes ∧ tget pes "version" = some ver ∧
        ver.asStr? = none) ∨
      (∃ id doc pes ver s, m.package_id name = some id ∧ m.doc? id = some doc ∧
        docPackageTable? doc = some pes ∧ tget pes "version" = some ver ∧
        ver.asStr? = some s ∧ Version.parse s = none)) :
    m.bump_version_inner name bump = (none, m) := by
  rcases bump_version_inner_cases m name bump with hmiss |
    ⟨id, es, pes, ver, s, v, hid, hdoc, hpkg, hver, hstr, hpv, heq⟩
  · exact hmiss
  exfalso
  rcases h with hA | ⟨id', doc', hid', hdoc', hB⟩ | ⟨id', doc', pes', hid', hdoc', hpt', hC⟩ |
    ⟨id', doc', pes', ver', hid', hdoc', hpt', hver', hD⟩ |
    ⟨id', doc', pes', ver', s', hid', hdoc', hpt', hver', hstr', hE⟩
  · rw [hA] at hid
    exact Option.noConfusion hid
  all_goals rw [hid] at hid'
  all_goals replace hid' : id' = id := (Option.some_inj.mp hid').symm
  all_goals subst hid'
  all_goals rw [Metadata.doc?, hdoc] at hdoc'
  all_goals replace hdoc' : doc' = .table es := (Option.some_inj.mp hdoc').symm
  all_goals subst hdoc'
  · rw [docPackageTable?] at hB
    simp only [Toml.asTable?, Option.some_bind, hpkg] at hB
    exact Option.noConfusion hB
  all_goals rw [docPackageTable?] at hpt'
  all_goals simp only [Toml.asTable?, Option.some_bind, hpkg] at hpt'
  all_goals replace hpt' : pes' = pes := (Option.some_inj.mp hpt').symm
  all_goals subst hpt'
  · rw [hver] at hC
    exact Option.noConfusion hC
  all_goals rw [hver] at hver'
  all_goals replace hver' : ver' = ver := (Option.some_inj.mp hver').symm
  all_goals subst hver'
  · rw [hstr] at hD
    exact Option.noConfusion hD
  · rw [hstr] at hstr'
    replace hstr' : s' = s := (Option.some_inj.mp hstr').symm
    subst hstr'
    rw [hpv] at hE
    exact Option.noConfusion hE

/-- Witness for C2: the empty session misses on any name, and a session
whose `package.version` is the unparsable string `abc` misses on parse;
neither touches the metadata. -/
theorem bump_miss_no_effect_witness :
    Metadata.bump_version_inner ⟨[], []⟩ "pkg" .patch = (none, ⟨[], []⟩) ∧
    Metadata.bump_version_inner
        ⟨[("A", Toml.table [("package", Toml.table [("version", Toml.str "abc")])])],
         [⟨"p", "A", "m"⟩]⟩ "p" .major =
      (none,
       ⟨[("A", Toml.table [("package", Toml.table [("version", Toml.str "abc")])])],
        [⟨"p", "A", "m"⟩]⟩) :=
  ⟨bump_miss_no_effect _ "pkg" .patch (Or.inl rfl),
   bump_miss_no_effect _ "p" .major
     (Or.inr (Or.inr (Or.inr (Or.inr
       ⟨"A", Toml.table [("package", Toml.table [("version", Toml.str "abc")])],
        [("version", Toml.str "abc")], Toml.str "abc", "abc",
        rfl, rfl, rfl, rfl, rfl, rfl⟩))))⟩

/-- **C3**: for every session and package whose `package.version` is a
valid semver string, `bump(name, level)` returns the incremented version
with semver reset semantics (major bump resets minor and patch, minor bump
resets patch and keeps major, patch bump keeps major and minor) and writes
the new version's string form back into the same `package.version` node. -/
theorem bump_valid_version (m : Metadata) (name : String) (bump : SemVer)
    (id : String) (es pes : List (String × Toml)) (s : String) (v : Version)
    (hid : m.package_id name = some id)
    (hdoc : m.doc? id = some (.table es))
    (hpkg : tget es "package" = some (.table pes))
    (hver : tget pes "version" = some (.str s))
    (hpv : Version.parse s = some v) :
    (m.bump_version_inner name bump).1 = some (v.increment bump) ∧
    v.increment .major = ⟨v.major + 1, 0, 0⟩ ∧
    v.increment .minor = ⟨v.major, v.minor + 1, 0⟩ ∧
    v.increment .patch = ⟨v.major, v.minor, v.patch + 1⟩ ∧
    ∃ doc', ((m.bump_version_inner name bump).2).doc? id = some doc' ∧
      get_version doc' = some (.str (v.increment bump).render) := by
  have hdoc' : tget m.rawTomlMap id = some (.table es) := hdoc
  have hres := bump_version_inner_eq_of_chain m name bump id es pes s v
    hid hdoc' hpkg hver hpv
  refine ⟨by rw [hres], rfl, rfl, rfl, ?_⟩
  refine ⟨.table (tset es "package"
    (.table (tset pes "version" (.str (v.increment bump).render)))), ?_, ?_⟩
  · rw [hres]
    exact tget_tset_self _ _ _ _ hdoc'
  · rw [get_version, Toml.asTable?]
    simp only [Option.some.injEq, tget_tset_self es "package" _ _ hpkg, Toml.asTable?]
    exact tget_tset_self pes "version" _ _ hver

/-- Witness for C3: `bump_minor` on the one-package session at `1.2.3`
returns version `1.3.0`. -/
theorem bump_valid_version_witness :
    (mOne.bump_version_inner "pkg" .minor).1 = some ⟨1, 3, 0⟩ :=
  (bump_valid_version mOne "pkg" .minor "id-pkg" pkgEs pkgPes "1.2.3" ⟨1, 2, 3⟩
    rfl rfl rfl rfl rfl).1

/-- `List.find?` resolves to the first element satisfying the predicate. -/
theorem find?_first_match {α : Type} (p : α → Bool) (pre post : List α) (x : α)
    (hpre : ∀ q ∈ pre, p q = false) (hx : p x = true) :
    (pre ++ x :: post).find? p = some x := by
  induction pre with
  | nil => simp [List.find?_cons, hx]
  | cons q rest ih =>
    have hq : p q = false := hpre q (List.mem_cons_self q rest)
    have := ih (fun r hr => hpre r (List.mem_cons_of_mem q hr))
    simp [List.find?_cons, hq, this]

/-- **C4**: when several packages share the requested name, a
single-package bump resolves the name to the first matching package in
discovery order, and the document of every other package id is left
unchanged. -/
theorem bump_duplicate_name_first_match (m : Metadata) (name : String) (bump : SemVer)
    (pre post : List Package) (p : Package)
    (hpkgs : m.packages = pre ++ p :: post)
    (hpre : ∀ q ∈ pre, q.name ≠ name)
    (hp : p.name = name) :
    m.package_id name = some p.id ∧
    ∀ id', id' ≠ p.id →
      ((m.bump_version_inner name bump).2).doc? id' = m.doc? id' := by
  have hfind : m.packages.find? (fun q => q.name == name) = some p := by
    rw [hpkgs]
    refine find?_first_match _ pre post p ?_ ?_
    · intro q hq
      simpa using hpre q hq
    · simpa using hp
  have hid : m.package_id name = some p.id := by
    rw [Metadata.package_id, hfind]
    rfl
  refine ⟨hid, ?_⟩
  intro id' hne
  rcases bump_version_inner_cases m name bump with hmiss |
    ⟨id₂, es₂, pes₂, ver₂, s₂, v₂, hid₂, hdoc₂, hpkg₂, hver₂, hstr₂, hpv₂, heq₂⟩
  · rw [hmiss]
  · rw [hid] at hid₂
    replace hid₂ : id₂ = p.id := (Option.some_inj.mp hid₂).symm
    subst hid₂
    rw [heq₂]
    exact tget_tset_ne _ _ _ _ hne

/-- Witness for C4: in the two-package `dup` workspace, `bump_patch`
resolves to the first package `A`, yields `0.1.1` for it, and the second
package's document stays at `5.0.0`. -/
theorem bump_duplicate_name_first_match_witness :
    mdup.package_id "dup" = some "A" ∧
    ((mdup.bump_version_inner "dup" .patch).2).doc? "B" = mdup.doc? "B" ∧
    (mdup.bump_version_inner "dup" .patch).1 = some ⟨0, 1, 1⟩ ∧
    (((mdup.bump_version_inner "dup" .patch).2).doc? "A").bind get_version =
      some (.str "0.1.1") ∧
    mdup.doc? "B" = some docB ∧ get_version docB = some (.str "5.0.0") := by
  have h := bump_duplicate_name_first_match mdup "dup" .patch []
    [⟨"dup", "B", "b/Cargo.toml"⟩] ⟨"dup", "A", "a/Cargo.toml"⟩ rfl
    (fun q hq => absurd hq (List.not_mem_nil q)) rfl
  exact ⟨h.1, h.2 "B" (by decide), rfl, rfl, rfl, rfl⟩

/-- **C1** (code bug): on the three-package workspace `mMixed`, whose
middle package has `package.version = 1` (an integer, not a string),
`bump_all_patch_versions` does not skip the malformed package: it reaches
`version.as_str().unwrap()` and panics (modelled as `none`), instead of
bumping the two well-formed packages and skipping the third. -/
theorem bump_all_panics_on_malformed_version :
    mMixed.bump_all_patch_versions = none := rfl

/-- Replacing an existing `version` value inside an existing `package`
table realizes the `sameOutsideVersion` frame. -/
theorem sameOutsideVersion_tset (es pes : List (String × Toml)) (s : String) (ver : Toml)
    (hpkg : tget es "package" = some (.table pes))
    (hver : tget pes "version" = some ver) :
    sameOutsideVersion (.table es)
      (.table (tset es "package" (.table (tset pes "version" (.str s))))) := by
  right
  refine ⟨es, pes, tset es "package" (.table (tset pes "version" (.str s))),
    tset pes "version" (.str s), s, rfl, rfl, tset_map_fst .., ?_, hpkg, ?_,
    tset_map_fst .., ?_, ?_⟩
  · intro k hk
    exact tget_tset_ne _ _ _ _ hk
  · exact tget_tset_self _ _ _ _ hpkg
  · intro k hk
    exact tget_tset_ne _ _ _ _ hk
  · exact tget_tset_self _ _ _ _ hver

/-- Inversion of a successful `get_version_mut`: the document is a table
with a table at `package` holding a `version` entry. -/
theorem get_version_eq_some {t ver : Toml} (h : get_version t = some ver) :
    ∃ es pes, t = .table es ∧ tget es "package" = some (.table pes) ∧
      tget pes "version" = some ver := by
  unfold get_version at h
  split at h
  · exact absurd h (by simp)
  rename_i es hes
  split at h
  · exact absurd h (by simp)
  rename_i pkg hpkg
  split at h
  · exact absurd h (by simp)
  rename_i pes hpes
  rw [Toml.asTable?_eq_some] at hes hpes
  subst hpes
  exact ⟨es, pes, hes, hpkg, h⟩

/-- Reduction of the write through `get_version_mut` when the path
exists. -/
theorem set_version_table (es pes : List (String × Toml)) (v : Toml)
    (hpkg : tget es "package" = some (.table pes)) :
    set_version (.table es) v =
      .table (tset es "package" (.table (tset pes "version" v))) := by
  simp only [set_version, hpkg]

/-- Each step of `bump_all_patch_versions` that does not panic respects the
version-only frame on its document. -/
theorem bumpAllDoc_frame {t t' : Toml} (h : bumpAllDoc t = some t') :
    sameOutsideVersion t t' := by
  unfold bumpAllDoc at h
  split at h
  · left
    exact (Option.some_inj.mp h).symm
  rename_i ver hver
  split at h
  · exact absurd h (by simp)
  rename_i s hstr
  split at h
  · exact absurd h (by simp)
  rename_i v hpv
  replace h : t' = set_version t (.str v.incrementPatch.render) := (Option.some_inj.mp h).symm
  obtain ⟨es, pes, hT, hpkg, hv⟩ := get_version_eq_some hver
  subst hT
  rw [h, set_version_table es pes _ hpkg]
  exact sameOutsideVersion_tset es pes _ _ hpkg hv

/-- The iteration of `bump_all_patch_versions` keeps the key list of
`raw_toml_map` and rewrites each document through `bumpAllDoc`. -/
theorem bumpAllDocs_eq_some (raw raw' : List (String × Toml))
    (h : bumpAllDocs raw = some raw') :
    raw'.map Prod.fst = raw.map Prod.fst ∧
    ∀ k t t', tget raw k = some t → tget raw' k = some t' → bumpAllDoc t = some t' := by
  induction raw generalizing raw' with
  | nil =>
    replace h : raw' = [] := (Option.some_inj.mp h).symm
    subst h
    refine ⟨rfl, ?_⟩
    intro k t t' ht
    exact absurd ht (by simp [tget])
  | cons e rest ih =>
    obtain ⟨k₀, t₀⟩ := e
    unfold bumpAllDocs at h
    split at h
    · exact absurd h (by simp)
    rename_i t₀' hb
    cases hr : bumpAllDocs rest with
    | none =>
      rw [hr] at h
      exact absurd h (by simp)
    | some rest' =>
      rw [hr] at h
      simp only [Option.map_some'] at h
      replace h : raw' = (k₀, t₀') :: rest' := (Option.some_inj.mp h).symm
      subst h
      obtain ⟨ihkeys, ihget⟩ := ih rest' hr
      refine ⟨by simp [ihkeys], ?_⟩
      intro k t t' ht ht'
      by_cases hk : k₀ = k
      · rw [tget, if_pos hk] at ht ht'
        rw [← Option.some_inj.mp ht, ← Option.some_inj.mp ht']
        exact hb
      · rw [tget, if_neg hk] at ht ht'
        exact ihget k t t' ht ht'

/-- Inversion of a non-panicking `bump_all_patch_versions`. -/
theorem bump_all_eq_some {m m' : Metadata} (h : m.bump_all_patch_versions = some m') :
    m'.packages = m.packages ∧
    m'.rawTomlMap.map Prod.fst = m.rawTomlMap.map Prod.fst ∧
    ∀ k t t', tget m.rawTomlMap k = some t → tget m'.rawTomlMap k = some t' →
      bumpAllDoc t = some t' := by
  unfold Metadata.bump_all_patch_versions at h
  cases hr : bumpAllDocs m.rawTomlMap with
  | none =>
    rw [hr] at h
    exact absurd h (by simp)
  | some raw' =>
    rw [hr] at h
    simp only [Option.map_some'] at h
    replace h : m' = { m with rawTomlMap := raw' } := (Option.some_inj.mp h).symm
    subst h
    obtain ⟨hkeys, hget⟩ := bumpAllDocs_eq_some _ _ hr
    exact ⟨rfl, hkeys, hget⟩

/-- **C5**: every bump operation (named or `bump_all`) modifies at most the
`package.version` node of the affected documents: the package list and the
key structure of the session are unchanged, and any document that changes
keeps every key and every value outside `package.version` intact. -/
theorem bump_frame_version_only (m : Metadata) (name : String) (bump : SemVer) :
    ((m.bump_version_inner name bump).2).packages = m.packages ∧
    ((m.bump_version_inner name bump).2).rawTomlMap.map Prod.fst =
      m.rawTomlMap.map Prod.fst ∧
    (∀ id doc doc', m.doc? id = some doc →
      ((m.bump_version_inner name bump).2).doc? id = some doc' →
      sameOutsideVersion doc doc') ∧
    ∀ m', m.bump_all_patch_versions = some m' →
      m'.packages = m.packages ∧
      m'.rawTomlMap.map Prod.fst = m.rawTomlMap.map Prod.fst ∧
      ∀ id doc doc', m.doc? id = some doc → m'.doc? id = some doc' →
        sameOutsideVersion doc doc' := by
  have hall : ∀ m', m.bump_all_patch_versions = some m' →
      m'.packages = m.packages ∧
      m'.rawTomlMap.map Prod.fst = m.rawTomlMap.map Prod.fst ∧
      ∀ id doc doc', m.doc? id = some doc → m'.doc? id = some doc' →
        sameOutsideVersion doc doc' := by
    intro m' h
    obtain ⟨hpk, hkeys, hget⟩ := bump_all_eq_some h
    exact ⟨hpk, hkeys, fun id doc doc' hd hd' => bumpAllDoc_frame (hget id doc doc' hd hd')⟩
  rcases bump_version_inner_cases m name bump with hmiss |
    ⟨id, es, pes, ver, s, v, hid, hdoc, hpkg, hver, hstr, hpv, heq⟩
  · rw [hmiss]
    refine ⟨rfl, rfl, ?_, hall⟩
    intro id doc doc' hd hd'
    rw [hd] at hd'
    left
    exact (Option.some_inj.mp hd').symm
  · rw [heq]
    refine ⟨rfl, tset_map_fst .., ?_, hall⟩
    intro id' doc doc' hd hd'
    by_cases hne : id' = id
    · subst hne
      rw [Metadata.doc?] at hd hd'
      rw [hdoc] at hd
      replace hd : doc = .table es := (Option.some_inj.mp hd).symm
      subst hd
      rw [tget_tset_self _ _ _ _ hdoc] at hd'
      replace hd' : doc' = _ := (Option.some_inj.mp hd').symm
      rw [hd']
      exact sameOutsideVersion_tset es pes _ _ hpkg hver
    · rw [Metadata.doc?, tget_tset_ne _ _ _ _ hne] at hd'
      rw [Metadata.doc?] at hd
      rw [hd] at hd'
      left
      exact (Option.some_inj.mp hd').symm

/-- Witness for C5: bumping `dup` in the two-package workspace relates the
first document before and after through the version-only frame. -/
theorem bump_frame_version_only_witness :
    sameOutsideVersion docA
      (.table [("package", .table [("name", .str "dup"), ("version", .str "0.1.1")]),
               ("dependencies", .table [("x", .str "1")])]) :=
  (bump_frame_version_only mdup "dup" .patch).2.2.1 "A" docA
    (.table [("package", .table [("name", .str "dup"), ("version", .str "0.1.1")]),
             ("dependencies", .table [("x", .str "1")])]) rfl rfl

/-- **C10**: after a successful single-package bump, the string stored in
the `package.version` node is exactly the canonical rendered form of the
version returned to the caller, that string re-parses to the same semantic
version, and a subsequent bump of the same package succeeds again. -/
theorem bump_result_agrees_with_tree (m m' : Metadata) (name : String) (bump : SemVer)
    (v : Version) (h : m.bump_version_inner name bump = (some v, m')) :
    ∃ id doc', m.package_id name = some id ∧ m'.doc? id = some doc' ∧
      get_version doc' = some (.str v.render) ∧
      Version.parse v.render = some v ∧
      (m'.bump_version_inner name bump).1 = some (v.increment bump) := by
  rcases bump_version_inner_cases m name bump with hmiss |
    ⟨id, es, pes, ver, s, v₂, hid, hdoc, hpkg, hver, hstr, hpv, heq⟩
  · rw [hmiss] at h
    simp only [Prod.mk.injEq] at h
    exact Option.noConfusion h.1
  · rw [heq] at h
    simp only [Prod.mk.injEq] at h
    obtain ⟨hv, hm'⟩ := h
    replace hv : v = v₂.increment bump := (Option.some_inj.mp hv).symm
    subst hv
    subst hm'
    refine ⟨id, .table (tset es "package"
      (.table (tset pes "version" (.str (v₂.increment bump).render)))),
      hid, tget_tset_self _ _ _ _ hdoc, ?_, Version.parse_render _, ?_⟩
    · rw [get_version, Toml.asTable?]
      simp only [Option.some.injEq, tget_tset_self es "package" _ _ hpkg, Toml.asTable?]
      exact tget_tset_self pes "version" _ _ hver
    · rw [Toml.asStr?_eq_some] at hstr
      subst hstr
      have hres := bump_version_inner_eq_of_chain
        { m with
           rawTomlMap :=
             tset m.rawTomlMap id
               (.table (tset es "package"
                 (.table (tset pes "version" (.str (v₂.increment bump).render))))) }
        name bump id
        (tset es "package" (.table (tset pes "version" (.str (v₂.increment bump).render))))
        (tset pes "version" (.str (v₂.increment bump).render))
        ((v₂.increment bump).render) (v₂.increment bump)
        hid
        (tget_tset_self _ _ _ _ hdoc)
        (tget_tset_self es "package" _ _ hpkg)
        (tget_tset_self pes "version" _ _ hver)
        (Version.parse_render _)
      rw [hres]

/-- Witness for C10: bumping `pkg` from `1.2.3` by a minor level stores
`1.3.0`, which re-parses and bumps again to `1.4.0`. -/
theorem bump_result_agrees_with_tree_witness :
    ∃ id doc', mOne.package_id "pkg" = some id ∧
      ((mOne.bump_version_inner "pkg" .minor).2).doc? id = some doc' ∧
      get_version doc' = some (.str (Version.mk 1 3 0).render) ∧
      Version.parse (Version.mk 1 3 0).render = some ⟨1, 3, 0⟩ ∧
      (((mOne.bump_version_inner "pkg" .minor).2).bump_version_inner "pkg" .minor).1 =
        some ⟨1, 4, 0⟩ :=
  bump_result_agrees_with_tree mOne (mOne.bump_version_inner "pkg" .minor).2
    "pkg" .minor ⟨1, 3, 0⟩ rfl

/-- Inversion of a successful `loadDocs`: entries correspond 1:1 and in
order to the packages, each carrying the id and the parsed content of the
package's manifest file. -/
theorem loadDocs_ok (readFile : String → Option String) (parse : String → Option Toml)
    (pkgs : List Package) (raw : List (String × Toml))
    (h : loadDocs readFile parse pkgs = .ok raw) :
    List.Forall₂ (fun (e : String × Toml) (p : Package) =>
      e.1 = p.id ∧ ∃ c, readFile p.manifestPath = some c ∧ parse c = some e.2)
      raw pkgs := by
  induction pkgs generalizing raw with
  | nil =>
    replace h : raw = [] := by
      unfold loadDocs at h
      cases h
      rfl
    subst h
    exact List.Forall₂.nil
  | cons p ps ih =>
    unfold loadDocs at h
    split at h
    · exact Except.noConfusion h
    rename_i c hread
    split at h
    · exact Except.noConfusion h
    rename_i doc hparse
    cases hr : loadDocs readFile parse ps with
    | error e =>
      rw [hr] at h
      exact Except.noConfusion h
    | ok rest =>
      rw [hr] at h
      simp only [Except.map] at h
      replace h : raw = (p.id, doc) :: rest := by
        cases h
        rfl
      subst h
      exact List.Forall₂.cons ⟨rfl, c, hread, hparse⟩ (ih rest hr)

/-- If any package's manifest fails to read or to parse, `loadDocs`
fails. -/
theorem loadDocs_error (readFile : String → Option String) (parse : String → Option Toml)
    (pkgs : List Package)
    (h : ∃ p ∈ pkgs, readFile p.manifestPath = none ∨
      ∃ c, readFile p.manifestPath = some c ∧ parse c = none) :
    ∃ e, loadDocs readFile parse pkgs = .error e := by
  induction pkgs with
  | nil =>
    obtain ⟨p, hp, _⟩ := h
    exact absurd hp (List.not_mem_nil p)
  | cons q ps ih =>
    cases hread : readFile q.manifestPath with
    | none => exact ⟨q.manifestPath, by rw [loadDocs, hread]⟩
    | some c =>
      cases hparse : parse c with
      | none =>
        refine ⟨q.manifestPath, ?_⟩
        rw [loadDocs, hread]
        simp only [hparse]
      | some doc =>
        obtain ⟨p, hp, hfail⟩ := h
        rcases List.mem_cons.mp hp with hq | hps
        · exfalso
          subst hq
          rcases hfail with hf | ⟨c', hc', hpc'⟩
          · rw [hread] at hf
            exact Option.noConfusion hf
          · rw [hread] at hc'
            replace hc' : c = c' := Option.some_inj.mp hc'
            subst hc'
            rw [hparse] at hpc'
            exact Option.noConfusion hpc'
        · obtain ⟨e, herr⟩ := ih ⟨p, hps, hfail⟩
          refine ⟨e, ?_⟩
          rw [loadDocs, hread]
          simp only [hparse, herr, Except.map]

/-- Inversion of a successful `from_dir`: discovery succeeded and every
package's manifest was read and parsed into the session, in order. -/
theorem from_dir_ok_inv {ws : Except String (List Package)}
    {readFile : String → Option String} {parse : String → Option Toml} {md : Metadata}
    (h : from_dir ws readFile parse = .ok md) :
    ∃ pkgs, ws = .ok pkgs ∧ md.packages = pkgs ∧
      List.Forall₂ (fun (e : String × Toml) (p : Package) =>
        e.1 = p.id ∧ ∃ c, readFile p.manifestPath = some c ∧ parse c = some e.2)
        md.rawTomlMap pkgs := by
  unfold from_dir at h
  split at h
  · exact Except.noConfusion h
  rename_i pkgs
  split at h
  · exact Except.noConfusion h
  rename_i raw hload
  replace h : md = { rawTomlMap := raw, packages := pkgs } := by
    cases h
    rfl
  subst h
  exact ⟨pkgs, rfl, rfl, loadDocs_ok readFile parse pkgs raw hload⟩

/-- The first components of a loaded entry list are the package ids. -/
theorem forall₂_load_map_fst {readFile : String → Option String}
    {parse : String → Option Toml} {raw : List (String × Toml)} {pkgs : List Package}
    (h : List.Forall₂ (fun (e : String × Toml) (p : Package) =>
      e.1 = p.id ∧ ∃ c, readFile p.manifestPath = some c ∧ parse c = some e.2)
      raw pkgs) :
    raw.map Prod.fst = pkgs.map Package.id := by
  induction h with
  | nil => rfl
  | cons hrel _ ih => simp [hrel.1, ih]

/-- **C6**: construction from a project root either fails with the Load
error (when workspace inspection fails, or when reading or parsing any
single package's manifest fails — no partial session exists) or returns a
session in which every discovered package's document is parsed and loaded,
in discovery order. -/
theorem from_dir_all_or_nothing (ws : Except String (List Package))
    (readFile : String → Option String) (parse : String → Option Toml) :
    (∀ e, ws = .error e → from_dir ws readFile parse = .error e) ∧
    (∀ md, from_dir ws readFile parse = .ok md →
      ∃ pkgs, ws = .ok pkgs ∧ md.packages = pkgs ∧
        List.Forall₂ (fun (e : String × Toml) (p : Package) =>
          e.1 = p.id ∧ ∃ c, readFile p.manifestPath = some c ∧ parse c = some e.2)
          md.rawTomlMap pkgs) ∧
    (∀ pkgs, ws = .ok pkgs →
      (∃ p ∈ pkgs, readFile p.manifestPath = none ∨
        ∃ c, readFile p.manifestPath = some c ∧ parse c = none) →
      ∃ e, from_dir ws readFile parse = .error e) := by
  refine ⟨?_, ?_, ?_⟩
  · intro e he
    rw [he]
    rfl
  · intro md h
    exact from_dir_ok_inv h
  · intro pkgs hws hfail
    obtain ⟨e, herr⟩ := loadDocs_error readFile parse pkgs hfail
    refine ⟨e, ?_⟩
    rw [hws, from_dir, herr]

/-- Witness for C6: a one-package workspace loads fully, and the same
workspace with an unreadable manifest fails to construct. -/
theorem from_dir_all_or_nothing_witness :
    (∃ pkgs, (Except.ok [(⟨"p", "A", "a"⟩ : Package)] : Except String (List Package)) =
        .ok pkgs ∧
      (Metadata.mk [("A", Toml.table [])] [⟨"p", "A", "a"⟩]).packages = pkgs ∧
      List.Forall₂ (fun (e : String × Toml) (p : Package) =>
        e.1 = p.id ∧ ∃ c, (fun (_ : String) => some "t") p.manifestPath = some c ∧
          (fun (_ : String) => some (Toml.table [])) c = some e.2)
        (Metadata.mk [("A", Toml.table [])] [⟨"p", "A", "a"⟩]).rawTomlMap pkgs) ∧
    (∃ e, from_dir (.ok [(⟨"p", "A", "a"⟩ : Package)])
        (fun (_ : String) => (none : Option String))
        (fun (_ : String) => some (Toml.table [])) = .error e) := by
  constructor
  · exact (from_dir_all_or_nothing (.ok [⟨"p", "A", "a"⟩])
      (fun _ => some "t") (fun _ => some (.table []))).2.1
      (Metadata.mk [("A", Toml.table [])] [⟨"p", "A", "a"⟩]) rfl
  · exact (from_dir_all_or_nothing (.ok [⟨"p", "A", "a"⟩])
      (fun _ => none) (fun _ => some (.table []))).2.2
      [⟨"p", "A", "a"⟩] rfl ⟨⟨"p", "A", "a"⟩, List.mem_cons_self _ _, Or.inl rfl⟩

/-- **C8**: the 1:1 correspondence between package ids and documents is
established by construction and preserved by every bump operation; under
it, every id occurs exactly as often among the documents as among the
packages. -/
theorem packages_documents_in_sync :
    (∀ (ws : Except String (List Package)) (readFile : String → Option String)
      (parse : String → Option Toml) (md : Metadata),
      from_dir ws readFile parse = .ok md → inSync md) ∧
    (∀ (m : Metadata) (name : String) (bump : SemVer),
      inSync m → inSync (m.bump_version_inner name bump).2) ∧
    (∀ (m m' : Metadata), inSync m → m.bump_all_patch_versions = some m' → inSync m') ∧
    (∀ (m : Metadata), inSync m →
      ∀ id, (m.rawTomlMap.map Prod.fst).count id =
        (m.packages.map Package.id).count id) := by
  refine ⟨?_, ?_, ?_, ?_⟩
  · intro ws readFile parse md h
    obtain ⟨pkgs, _, hpk, hrel⟩ := from_dir_ok_inv h
    unfold inSync
    rw [hpk]
    exact forall₂_load_map_fst hrel
  · intro m name bump hs
    rcases bump_version_inner_cases m name bump with hmiss |
      ⟨id, es, pes, ver, s, v, hid, hdoc, hpkg, hver, hstr, hpv, heq⟩
    · rw [hmiss]
      exact hs
    · rw [heq]
      unfold inSync at hs ⊢
      rw [tset_map_fst]
      exact hs
  · intro m m' hs h
    obtain ⟨hpk, hkeys, _⟩ := bump_all_eq_some h
    unfold inSync at hs ⊢
    rw [hpk, hkeys]
    exact hs
  · intro m hs id
    unfold inSync at hs
    rw [hs]

/-- Witness for C8: construction of a one-package session yields the
correspondence, and bumping `dup` preserves it. -/
theorem packages_documents_in_sync_witness :
    inSync (Metadata.mk [("A", Toml.table [])] [⟨"p", "A", "a"⟩]) ∧
    inSync (mdup.bump_version_inner "dup" .patch).2 :=
  ⟨packages_documents_in_sync.1 (.ok [⟨"p", "A", "a"⟩]) (fun _ => some "t")
      (fun _ => some (.table [])) (Metadata.mk [("A", Toml.table [])] [⟨"p", "A", "a"⟩]) rfl,
   packages_documents_in_sync.2.1 mdup "dup" .patch rfl⟩

/-- Under the construction invariant, the per-package document lookup in
`dump` always succeeds. -/
theorem dumpGo_ne_panicked (raw : List (String × Toml)) (serialize : Toml → Option String)
    (ps : List Package) (fs : Fs) (h : ∀ p ∈ ps, (tget raw p.id).isSome) :
    dumpGo raw serialize ps fs ≠ .panicked := by
  induction ps generalizing fs with
  | nil =>
    intro hcon
    exact DumpResult.noConfusion hcon
  | cons p rest ih =>
    intro hcon
    rw [dumpGo] at hcon
    split at hcon
    · split at hcon
      · rename_i hnone
        have hsome := h p (List.mem_cons_self p rest)
        rw [hnone] at hsome
        exact absurd hsome (by simp)
      · rename_i doc hdoc
        split at hcon
        · exact DumpResult.noConfusion hcon
        · rename_i text htext
          split at hcon
          · exact ih _ (fun q hq => h q (List.mem_cons_of_mem p hq)) hcon
          · exact DumpResult.noConfusion hcon
    · exact DumpResult.noConfusion hcon

/-- **C9**: under the construction invariant that every package id has a
document entry, the `unwrap` on the document lookup in `dump` is
unreachable: `persist` cannot panic from a missing document. -/
theorem dump_lookup_never_panics (m : Metadata) (serialize : Toml → Option String)
    (fs : Fs) (h : inSync m) : m.dump serialize fs ≠ .panicked := by
  apply dumpGo_ne_panicked
  intro p hp
  apply tget_isSome_of_mem_fst
  unfold inSync at h
  rw [h]
  exact List.mem_map_of_mem Package.id hp

/-- Witness for C9: dumping the `dup` workspace does not panic. -/
theorem dump_lookup_never_panics_witness :
    mdup.dump serializeConst fsGood ≠ .panicked :=
  dump_lookup_never_panics mdup serializeConst fsGood rfl

theorem Fs.truncate_files_self (fs : Fs) (path : String) :
    (fs.truncate path).files path = some "" := by
  simp [Fs.truncate]

theorem Fs.truncate_files_ne (fs : Fs) (path q : String) (h : q ≠ path) :
    (fs.truncate path).files q = fs.files q := by
  simp [Fs.truncate, h]

theorem Fs.write_files_self (fs : Fs) (path text : String) :
    (fs.write path text).files path = some text := by
  simp [Fs.write]

theorem Fs.write_files_ne (fs : Fs) (path text q : String) (h : q ≠ path) :
    (fs.write path text).files q = fs.files q := by
  simp [Fs.write, h]

/-- A successful `dump` has serialized and written every package's
document to its manifest path, and touched no other path. -/
theorem dumpGo_ok_writes (raw : List (String × Toml)) (serialize : Toml → Option String)
    {ps : List Package} (hdist : ps.Pairwise (fun p q => p.manifestPath ≠ q.manifestPath)) :
    ∀ (fs fs' : Fs), dumpGo raw serialize ps fs = .ok fs' →
    (∀ q ∈ ps, ∃ doc text, tget raw q.id = some doc ∧ serialize doc = some text ∧
      fs'.files q.manifestPath = some text) ∧
    (∀ path, (∀ q ∈ ps, q.manifestPath ≠ path) → fs'.files path = fs.files path) := by
  induction hdist with
  | nil =>
    intro fs fs' h
    rw [dumpGo] at h
    injection h with h2
    subst h2
    refine ⟨?_, fun path _ => rfl⟩
    intro q hq
    exact absurd hq (List.not_mem_nil q)
  | cons hp hrest ih =>
    rename_i p rest
    intro fs fs' h
    rw [dumpGo] at h
    split at h
    case isFalse => exact DumpResult.noConfusion h
    case isTrue hc =>
      split at h
      · exact DumpResult.noConfusion h
      rename_i doc hdoc
      split at h
      · exact DumpResult.noConfusion h
      rename_i text htext
      split at h
      case isFalse => exact DumpResult.noConfusion h
      case isTrue hw =>
        obtain ⟨ihall, ihframe⟩ := ih _ _ h
        constructor
        · intro q hq
          rcases List.mem_cons.mp hq with rfl | hq'
          · refine ⟨doc, text, hdoc, htext, ?_⟩
            rw [ihframe q.manifestPath (fun r hr => Ne.symm (hp r hr)),
              Fs.write_files_self]
          · exact ihall q hq'
        · intro path hpath
          rw [ihframe path (fun r hr => hpath r (List.mem_cons_of_mem p hr))]
          have hne : path ≠ p.manifestPath :=
            Ne.symm (hpath p (List.mem_cons_self p rest))
          rw [Fs.write_files_ne _ _ _ _ hne, Fs.truncate_files_ne _ _ _ hne]

/-- A failed `dump` stopped at some package `p`: every earlier package's
file holds its serialized document, every later package's file is
untouched, `p`'s own file is untouched if opening it failed and truncated
to empty otherwise, and no other path changed. -/
theorem dumpGo_err_partial (raw : List (String × Toml)) (serialize : Toml → Option String)
    {ps : List Package} (hdist : ps.Pairwise (fun p q => p.manifestPath ≠ q.manifestPath)) :
    ∀ (fs fs' : Fs), dumpGo raw serialize ps fs = .err fs' →
    ∃ pre p post, ps = pre ++ p :: post ∧
      (∀ q ∈ pre, ∃ doc text, tget raw q.id = some doc ∧ serialize doc = some text ∧
        fs'.files q.manifestPath = some text) ∧
      ((fs.createOk p.manifestPath = false ∧
        fs'.files p.manifestPath = fs.files p.manifestPath) ∨
        fs'.files p.manifestPath = some "") ∧
      (∀ q ∈ post, fs'.files q.manifestPath = fs.files q.manifestPath) ∧
      (∀ path, (∀ q ∈ ps, q.manifestPath ≠ path) → fs'.files path = fs.files path) := by
  induction hdist with
  | nil =>
    intro fs fs' h
    rw [dumpGo] at h
    exact DumpResult.noConfusion h
  | cons hp hrest ih =>
    rename_i p rest
    intro fs fs' h
    rw [dumpGo] at h
    split at h
    case isFalse hc =>
      injection h with h2
      subst h2
      refine ⟨[], p, rest, rfl, ?_, Or.inl ⟨by simpa using hc, rfl⟩,
        fun q hq => rfl, fun path _ => rfl⟩
      intro q hq
      exact absurd hq (List.not_mem_nil q)
    case isTrue hc =>
      split at h
      · exact DumpResult.noConfusion h
      rename_i doc hdoc
      split at h
      case _ hser =>
        injection h with h2
        subst h2
        refine ⟨[], p, rest, rfl, ?_, Or.inr (Fs.truncate_files_self ..),
          fun q hq => Fs.truncate_files_ne _ _ _ (Ne.symm (hp q hq)), ?_⟩
        · intro q hq
          exact absurd hq (List.not_mem_nil q)
        · intro path hpath
          exact Fs.truncate_files_ne _ _ _
            (Ne.symm (hpath p (List.mem_cons_self p rest)))
      rename_i text htext
      split at h
      case isTrue hw =>
        obtain ⟨pre', p', post', hsplit, hpre, hfail, hpost, hframe⟩ := ih _ _ h
        have hp'mem : p' ∈ rest := by
          rw [hsplit]
          exact List.mem_append_right pre' (List.mem_cons_self p' post')
        have hp'ne : p'.manifestPath ≠ p.manifestPath := Ne.symm (hp p' hp'mem)
        refine ⟨p :: pre', p', post', by rw [hsplit, List.cons_append], ?_, ?_, ?_, ?_⟩
        · intro q hq
          rcases List.mem_cons.mp hq with rfl | hq'
          · refine ⟨doc, text, hdoc, htext, ?_⟩
            rw [hframe q.manifestPath (fun r hr => Ne.symm (hp r hr)),
              Fs.write_files_self]
          · exact hpre q hq'
        · rcases hfail with ⟨hcr, hfp⟩ | hfp
          · left
            refine ⟨hcr, ?_⟩
            rw [hfp, Fs.write_files_ne _ _ _ _ hp'ne, Fs.truncate_files_ne _ _ _ hp'ne]
          · right
            exact hfp
        · intro q hq
          have hqrest : q ∈ rest := by
            rw [hsplit]
            exact List.mem_append_right pre' (List.mem_cons_of_mem p' hq)
          have hqne : q.manifestPath ≠ p.manifestPath := Ne.symm (hp q hqrest)
          rw [hpost q hq, Fs.write_files_ne _ _ _ _ hqne,
            Fs.truncate_files_ne _ _ _ hqne]
        · intro path hpath
          have hne : path ≠ p.manifestPath :=
            Ne.symm (hpath p (List.mem_cons_self p rest))
          rw [hframe path (fun r hr => hpath r (List.mem_cons_of_mem p hr)),
            Fs.write_files_ne _ _ _ _ hne, Fs.truncate_files_ne _ _ _ hne]
      case isFalse hw =>
        injection h with h2
        subst h2
        refine ⟨[], p, rest, rfl, ?_, Or.inr (Fs.truncate_files_self ..),
          fun q hq => Fs.truncate_files_ne _ _ _ (Ne.symm (hp q hq)), ?_⟩
        · intro q hq
          exact absurd hq (List.not_mem_nil q)
        · intro path hpath
          exact Fs.truncate_files_ne _ _ _
            (Ne.symm (hpath p (List.mem_cons_self p rest)))

/-- **C7** (amended): `persist` serializes and writes every known
package's manifest in order, including packages untouched by any bump; on
a failure at package `p`, the packages before `p` have been overwritten
with their serialized documents and the packages after `p` are unchanged,
while `p` itself is unchanged when opening its file failed but has been
truncated to empty when serialization or writing failed after the open. -/
theorem dump_writes_all_in_order (m : Metadata) (serialize : Toml → Option String)
    (fs : Fs)
    (hdist : m.packages.Pairwise (fun p q => p.manifestPath ≠ q.manifestPath)) :
    (∀ fs', m.dump serialize fs = .ok fs' →
      ∀ q ∈ m.packages, ∃ doc text, tget m.rawTomlMap q.id = some doc ∧
        serialize doc = some text ∧ fs'.files q.manifestPath = some text) ∧
    (∀ fs', m.dump serialize fs = .err fs' →
      ∃ pre p post, m.packages = pre ++ p :: post ∧
        (∀ q ∈ pre, ∃ doc text, tget m.rawTomlMap q.id = some doc ∧
          serialize doc = some text ∧ fs'.files q.manifestPath = some text) ∧
        ((fs.createOk p.manifestPath = false ∧
          fs'.files p.manifestPath = fs.files p.manifestPath) ∨
          fs'.files p.manifestPath = some "") ∧
        (∀ q ∈ post, fs'.files q.manifestPath = fs.files q.manifestPath)) := by
  constructor
  · intro fs' h
    exact (dumpGo_ok_writes m.rawTomlMap serialize hdist fs fs' h).1
  · intro fs' h
    obtain ⟨pre, p, post, h1, h2, h3, h4, _⟩ :=
      dumpGo_err_partial m.rawTomlMap serialize hdist fs fs' h
    exact ⟨pre, p, post, h1, h2, h3, h4⟩

/-- Counterexample to C7 as stated: with a disk where writing the first
manifest fails after the file was opened, `dump` fails at package 1, yet
package 1's file — which the claim says has "not been overwritten" — has
been truncated from `A0` to the empty string by `File::create`. -/
theorem dump_truncates_failed_package :
    mdup.dump serializeConst fsBadWrite = .err (fsBadWrite.truncate "a/Cargo.toml") ∧
    fsBadWrite.files "a/Cargo.toml" = some "A0" ∧
    (fsBadWrite.truncate "a/Cargo.toml").files "a/Cargo.toml" = some "" ∧
    (fsBadWrite.truncate "a/Cargo.toml").files "b/Cargo.toml" = some "B0" :=
  ⟨rfl, rfl, rfl, rfl⟩

/-- Witness for the amended C7: a fully successful dump of the `dup`
workspace leaves the first package's serialized text on disk. -/
theorem dump_writes_all_in_order_witness :
    ∃ doc text, tget mdup.rawTomlMap "A" = some doc ∧ serializeConst doc = some text ∧
      fsGoodRes.files "a/Cargo.toml" = some text := by
  have hdist : mdup.packages.Pairwise (fun p q => p.manifestPath ≠ q.manifestPath) := by
    refine List.Pairwise.cons ?_ (List.Pairwise.cons ?_ List.Pairwise.nil)
    · intro q hq
      rcases List.mem_cons.mp hq with rfl | hq'
      · decide
      · exact absurd hq' (List.not_mem_nil q)
    · intro q hq
      exact absurd hq (List.not_mem_nil q)
  exact (dump_writes_all_in_order mdup serializeConst fsGood hdist).1 fsGoodRes rfl
    ⟨"dup", "A", "a/Cargo.toml"⟩ (List.mem_cons_self _ _)

end ManifestEditor
